import Mathlib

/-!
Shallow embedding of flax/nnx/nnx/training/metrics.py.

Modelling conventions:
* jax float32 scalars are modelled as exact rationals; numeric claims the
  spec states "within floating-point tolerance" are settled as exact
  equalities of the rational model.
* A jax array is modelled by its shape, its flattened data and a dtype tag
  (`NArr`); `size` is the product of the shape, as in numpy.
* The `MetricState` variable cells are an external collaborator per the
  spec; they are modelled as plain fields holding their values.
* IEEE division by zero in `compute` (0/0 on an untouched accumulator)
  produces NaN; `none : Option _` stands for that non-finite result.
  Inside `update`, rational division (with the `q / 0 = 0` convention)
  stands for float division; a zero denominator arises there only for an
  empty-batch update of a fresh accumulator, a case outside every claim's
  scope.
* `raise` is modelled by `Except.error`; error kinds follow the spec's
  names (TypeError for a missing keyword -> ArgumentError kind,
  ValueError in Accuracy.update -> ShapeOrTypeError kind).
-/

namespace Metrics

/-- Element dtype tag of a jax array (only what the code inspects). -/
inductive DType where
  | int32
  | float32
  | boolT
  | other
deriving DecidableEq

/-- A jax array: shape, flattened (row-major) data, dtype. -/
structure NArr where
  shape : List ℕ
  data : List ℚ
  dtype : DType
deriving DecidableEq

/-- numpy `arr.size`: product of the shape. -/
def NArr.size (a : NArr) : ℕ := a.shape.prod

/-- numpy `arr.ndim`: length of the shape. -/
def NArr.ndim (a : NArr) : ℕ := a.shape.length

/-- `arr.sum()`. -/
def NArr.sum (a : NArr) : ℚ := a.data.sum

/-- `arr.mean() = arr.sum() / arr.size`. -/
def NArr.mean (a : NArr) : ℚ := a.sum / (a.size : ℚ)

/-- `arr.var()`: population variance, mean of squared deviations. -/
def NArr.var (a : NArr) : ℚ :=
  ((a.data.map fun x => (x - a.mean) ^ 2).sum) / (a.size : ℚ)

/-- Well-formedness: the flattened data has exactly `size` elements. -/
def NArr.wf (a : NArr) : Prop := a.data.length = a.size

/-- A value passed to `update`: a Python int/float scalar or a jax array. -/
inductive Value where
  | scalar (x : ℚ)
  | arr (a : NArr)
deriving DecidableEq

/-- `values if isinstance(values, (int, float)) else values.sum()`. -/
def Value.vsum : Value → ℚ
  | .scalar x => x
  | .arr a => a.sum

/-- `1 if isinstance(values, (int, float)) else values.size`. -/
def Value.vcount : Value → ℕ
  | .scalar _ => 1
  | .arr a => a.size

/-- `values if isinstance(values, (int, float)) else values.mean()`. -/
def Value.vmean : Value → ℚ
  | .scalar x => x
  | .arr a => a.mean

/-- `0.0 if isinstance(values, (int, float)) else values.var() * count`. -/
def Value.vm2 : Value → ℚ
  | .scalar _ => 0
  | .arr a => a.var * (a.size : ℚ)

/-- Well-formedness of a `Value` (trivial for scalars). -/
def Value.wf : Value → Prop
  | .scalar _ => True
  | .arr a => a.wf

/-- The `**kwargs` of an `update` call: named arguments in order. -/
abbrev KwArgs : Type := List (String × Value)

/-- `self.argname in kwargs` / `kwargs[self.argname]` lookup. -/
def KwArgs.find (kw : KwArgs) (name : String) : Option Value :=
  List.lookup name kw

/-- Error kinds raised by the module (spec section 7). -/
inductive MetricError where
  | argumentError (argname : String)
  | shapeOrTypeError
deriving DecidableEq

/-- IEEE float division with a zero denominator is non-finite (NaN here,
since every zero denominator reached by `compute` comes with a zero
numerator); `none` stands for that. -/
def nanDiv (a b : ℚ) : Option ℚ :=
  if b = 0 then none else some (a / b)

/-- State of `Average`: configured keyword, `total` (float32 cell),
`count` (int32 cell). -/
@[ext]
structure AverageState where
  argname : String
  total : ℚ
  count : ℤ
deriving DecidableEq

/-- `Average.__init__`: total = 0.0, count = 0. -/
def Average.init (argname : String) : AverageState :=
  ⟨argname, 0, 0⟩

/-- `Average.reset`. -/
def Average.reset (s : AverageState) : AverageState :=
  { s with total := 0, count := 0 }

/-- The state change of `Average.update` once the keyword was found:
`total += values or values.sum(); count += 1 or values.size`. -/
def Average.applyValue (s : AverageState) (v : Value) : AverageState :=
  { s with total := s.total + v.vsum, count := s.count + (v.vcount : ℤ) }

/-- `Average.update(**kwargs)`: raises when the configured keyword is
absent, otherwise accumulates. -/
def Average.update (s : AverageState) (kw : KwArgs) :
    Except MetricError AverageState :=
  match kw.find s.argname with
  | none => .error (.argumentError s.argname)
  | some v => .ok (Average.applyValue s v)

/-- `Average.compute`: `total / count` (NaN when count = 0). -/
def Average.compute (s : AverageState) : Option ℚ :=
  nanDiv s.total (s.count : ℚ)

/-- State of `Welford`: configured keyword, `count`, `mean`, `m2`. -/
@[ext]
structure WelfordState where
  argname : String
  count : ℤ
  mean : ℚ
  m2 : ℚ
deriving DecidableEq

/-- `Welford.__init__`: count = 0, mean = 0.0, m2 = 0.0. -/
def Welford.init (argname : String) : WelfordState :=
  ⟨argname, 0, 0, 0⟩

/-- `Welford.reset`. -/
def Welford.reset (s : WelfordState) : WelfordState :=
  { s with count := 0, mean := 0, m2 := 0 }

/-- The state change of `Welford.update` once the keyword was found,
mirroring the statement order of the code: the count cell is written
first, then mean and m2 are updated using the new count and the saved
`original_count`. -/
def Welford.applyValue (s : WelfordState) (v : Value) : WelfordState :=
  let count : ℕ := v.vcount
  let originalCount : ℤ := s.count
  let countAfter : ℤ := s.count + (count : ℤ)
  let delta : ℚ := v.vmean - s.mean
  let mean : ℚ := s.mean + delta * (count : ℚ) / (countAfter : ℚ)
  let m2 : ℚ :=
    s.m2 + (v.vm2 + delta * delta * (count : ℚ) * (originalCount : ℚ) / (countAfter : ℚ))
  ⟨s.argname, countAfter, mean, m2⟩

/-- `Welford.update(**kwargs)`. -/
def Welford.update (s : WelfordState) (kw : KwArgs) :
    Except MetricError WelfordState :=
  match kw.find s.argname with
  | none => .error (.argumentError s.argname)
  | some v => .ok (Welford.applyValue s v)

/-- Result record of `Welford.compute`; float32 fields, `none` = NaN. -/
structure Statistics where
  mean : Option ℝ
  standard_error_of_mean : Option ℝ
  standard_deviation : Option ℝ

/-- IEEE float division over the reals, `none` for a non-finite result. -/
noncomputable def nanDivR (a b : ℝ) : Option ℝ :=
  if b = 0 then none else some (a / b)

/-- `Welford.compute`: `variance = m2 / count`,
`standard_deviation = variance ** 0.5`,
`sem = standard_deviation / count ** 0.5`; the mean field is the stored
running mean. -/
noncomputable def Welford.compute (s : WelfordState) : Statistics :=
  let variance : Option ℝ := nanDivR (s.m2 : ℝ) (s.count : ℝ)
  let standard_deviation : Option ℝ := variance.map Real.sqrt
  let sem : Option ℝ :=
    standard_deviation.bind fun sd => nanDivR sd (Real.sqrt (s.count : ℝ))
  ⟨some (s.mean : ℝ), sem, standard_deviation⟩

/-- Splits row-major flattened data into rows of `c` elements (the
last-axis grouping `jnp.argmax(axis=-1)` reduces over). -/
def toRows (c : ℕ) (l : List ℚ) : List (List ℚ) :=
  if h : c = 0 ∨ l = [] then []
  else l.take c :: toRows c (l.drop c)
termination_by l.length
decreasing_by
  push_neg at h
  simp only [List.length_drop]
  exact Nat.sub_lt (List.length_pos.mpr h.2) (Nat.pos_of_ne_zero h.1)

/-- Index scan of `jnp.argmax` over a vector: first index attaining the
maximum (`best` is the best index so far, `bv` its value, `i` the index
of the head of the remaining list). -/
def argmaxAux : List ℚ → ℕ → ℕ → ℚ → ℕ
  | [], _, best, _ => best
  | x :: xs, i, best, bv =>
    if bv < x then argmaxAux xs (i + 1) i x else argmaxAux xs (i + 1) best bv

/-- `jnp.argmax` of a vector (0 on the empty vector, which jax rejects;
never reached by the claims). -/
def argmaxIdx : List ℚ → ℕ
  | [] => 0
  | x :: xs => argmaxAux xs 1 0 x

/-- `Accuracy.update(logits=…, labels=…)`: checks
`logits.ndim == labels.ndim + 1 and labels.dtype == jnp.int32`, raising a
ValueError (ShapeOrTypeError kind) otherwise, then feeds the 0/1 array
`logits.argmax(axis=-1) == labels` to the Average update under the
literal keyword `values`. -/
def Accuracy.update (s : AverageState) (logits labels : NArr) :
    Except MetricError AverageState :=
  if logits.ndim ≠ labels.ndim + 1 ∨ labels.dtype ≠ DType.int32 then
    .error .shapeOrTypeError
  else
    let preds : List ℚ :=
      (toRows (logits.shape.getLastD 1) logits.data).map fun r => (argmaxIdx r : ℚ)
    let eq : List ℚ :=
      List.zipWith (fun p y => if p = y then (1 : ℚ) else 0) preds labels.data
    Average.update s [("values", Value.arr ⟨logits.shape.dropLast, eq, DType.boolT⟩)]

/-- A concrete child accumulator owned by a `MultiMetric` (an `Accuracy`
carries an Average state, having inherited reset/compute). -/
inductive MetricI where
  | avg (s : AverageState)
  | wel (s : WelfordState)
  | acc (s : AverageState)

/-- Dispatch of `reset` over a child accumulator. -/
def MetricI.reset : MetricI → MetricI
  | .avg s => .avg (Average.reset s)
  | .wel s => .wel (Welford.reset s)
  | .acc s => .acc (Average.reset s)

/-- Dispatch of `update(**updates)` over a child accumulator. For
`Accuracy`, Python itself binds the mandatory `logits`/`labels` keywords
and raises a TypeError (ArgumentError kind) when one is missing or not
an array. -/
def MetricI.update : MetricI → KwArgs → Except MetricError MetricI
  | .avg s, kw => (Average.update s kw).map .avg
  | .wel s, kw => (Welford.update s kw).map .wel
  | .acc s, kw =>
    match kw.find "logits", kw.find "labels" with
    | some (.arr lg), some (.arr lb) => (Accuracy.update s lg lb).map .acc
    | _, _ => .error (.argumentError "logits")

/-- Result of one child's `compute`. -/
inductive MetricResult where
  | scalar (x : Option ℚ)
  | stats (st : Statistics)

/-- Dispatch of `compute` over a child accumulator. -/
noncomputable def MetricI.compute : MetricI → MetricResult
  | .avg s => .scalar (Average.compute s)
  | .wel s => .stats (Welford.compute s)
  | .acc s => .scalar (Average.compute s)

/-- `MultiMetric` state: the owned accumulators with their names, in
insertion order (`_metric_names`). -/
abbrev MultiState : Type := List (String × MetricI)

/-- `MultiMetric.reset`: resets every owned accumulator in stored order. -/
def MultiMetric.reset : MultiState → MultiState
  | [] => []
  | (n, m) :: rest => (n, m.reset) :: MultiMetric.reset rest

/-- `MultiMetric.update(**updates)`: updates every owned accumulator in
stored order with the same keyword set, stopping at the first failure;
accumulators before the failure keep their new state (no rollback). -/
def MultiMetric.update : MultiState → KwArgs → MultiState × Option MetricError
  | [], _ => ([], none)
  | (n, m) :: rest, kw =>
    match m.update kw with
    | .error e => ((n, m) :: rest, some e)
    | .ok m2 =>
      let r := MultiMetric.update rest kw
      ((n, m2) :: r.1, r.2)

/-- `MultiMetric.compute`: name-to-result mapping in stored order. -/
noncomputable def MultiMetric.compute : MultiState → List (String × MetricResult)
  | [] => []
  | (n, m) :: rest => (n, m.compute) :: MultiMetric.compute rest

/-! ### Spec-side definitions (two-pass statistics, claim vocabulary)

These follow the words of the spec and of the claims; the theorems
compare them with the code-side definitions above. -/

/-- Spec: arithmetic mean of a finite sequence, by direct summation. -/
def popMean (l : List ℚ) : ℚ := l.sum / (l.length : ℚ)

/-- Spec: population variance by direct two-pass summation. -/
def popVar (l : List ℚ) : ℚ :=
  ((l.map fun x => (x - popMean l) ^ 2).sum) / (l.length : ℚ)

/-- Claim C1's `n`: 1 for a scalar, the array's size for an array. -/
def specN : Value → ℕ
  | .scalar _ => 1
  | .arr a => a.size

/-- Claim C1's `batch_mean`: the scalar itself or the array's arithmetic
mean of its elements. -/
def specBatchMean : Value → ℚ
  | .scalar x => x
  | .arr a => popMean a.data

/-- Claim C1's `batch_var_sum`: 0 for a scalar, `n` times the array's
population variance for an array. -/
def specBatchVarSum : Value → ℚ
  | .scalar _ => 0
  | .arr a => (a.size : ℚ) * popVar a.data

/-- The classic single-observation Welford recurrence, as the spec words
it: `delta = x - mean; mean += delta / count; m2 += delta * delta2` with
`delta2 = x - new mean`. -/
def classicWelfordStep (s : WelfordState) (x : ℚ) : WelfordState :=
  let count : ℤ := s.count + 1
  let delta : ℚ := x - s.mean
  let mean : ℚ := s.mean + delta / (count : ℚ)
  let delta2 : ℚ := x - mean
  ⟨s.argname, count, mean, s.m2 + delta * delta2⟩

/-- Elements contributed by one `update` value. -/
def Value.elems : Value → List ℚ
  | .scalar x => [x]
  | .arr a => a.data

/-- All elements across a sequence of update values, flattened. -/
def allElems (l : List Value) : List ℚ :=
  (l.map Value.elems).flatten

/-- Run a sequence of successful Average updates from a fresh state. -/
def runAverage (l : List Value) : AverageState :=
  l.foldl Average.applyValue (Average.init "values")

/-- One single-element Welford update (the state change of
`update(values=x)` for a scalar `x`). -/
def welfordScalarStep (s : WelfordState) (x : ℚ) : WelfordState :=
  Welford.applyValue s (.scalar x)

/-- Run a sequence of successful scalar Welford updates from a fresh
state. -/
def runWelford (l : List ℚ) : WelfordState :=
  l.foldl welfordScalarStep (Welford.init "values")

/-! ### Helper lemmas -/

theorem find_cons_self (name : String) (v : Value) (rest : List (String × Value)) :
    KwArgs.find ((name, v) :: rest) name = some v := by
  simp [KwArgs.find, List.lookup]

theorem sum_sq_dev (l : List ℚ) (m : ℚ) :
    (l.map fun x => (x - m) ^ 2).sum
      = (l.map fun x => x ^ 2).sum - 2 * m * l.sum + (l.length : ℚ) * m ^ 2 := by
  induction l with
  | nil => simp
  | cons x xs ih =>
    simp only [List.map_cons, List.sum_cons, List.length_cons, ih]
    push_cast
    ring

theorem sum_sq_dev_nonneg (l : List ℚ) (m : ℚ) :
    0 ≤ (l.map fun x => (x - m) ^ 2).sum := by
  apply List.sum_nonneg
  intro q hq
  obtain ⟨x, -, rfl⟩ := List.mem_map.mp hq
  positivity

theorem vm2_nonneg (v : Value) : 0 ≤ v.vm2 := by
  cases v with
  | scalar x => simp [Value.vm2]
  | arr a =>
    simp only [Value.vm2, NArr.var]
    apply mul_nonneg (div_nonneg (sum_sq_dev_nonneg _ _) (by positivity))
    positivity

theorem welfordScalarStep_eq (argn : String) (c : ℤ) (μ M : ℚ) (x : ℚ) :
    welfordScalarStep ⟨argn, c, μ, M⟩ x
      = ⟨argn, c + 1, μ + (x - μ) / ((c : ℚ) + 1),
          M + (x - μ) ^ 2 * (c : ℚ) / ((c : ℚ) + 1)⟩ := by
  simp only [welfordScalarStep, Welford.applyValue, Value.vcount, Value.vmean,
    Value.vm2]
  refine WelfordState.ext rfl (by push_cast; ring) (by push_cast; ring)
    (by push_cast; ring)

/-- Closed form of a non-empty sequence of scalar Welford updates: the
final count, mean and m2 depend only on the count of elements seen, on
their sum, and on their sum of squares. -/
theorem welford_foldl_closed (xs : List ℚ) (x : ℚ) (argn : String)
    (c : ℤ) (μ M : ℚ) (hc : 0 ≤ c) :
    (x :: xs).foldl welfordScalarStep ⟨argn, c, μ, M⟩
      = ⟨argn, c + ((x :: xs).length : ℤ),
          ((c : ℚ) * μ + (x :: xs).sum) / ((c : ℚ) + ((x :: xs).length : ℚ)),
          M + ((x :: xs).map fun t => t ^ 2).sum + (c : ℚ) * μ ^ 2
            - ((c : ℚ) + ((x :: xs).length : ℚ))
              * ((((c : ℚ) * μ + (x :: xs).sum)
                  / ((c : ℚ) + ((x :: xs).length : ℚ))) ^ 2)⟩ := by
  induction xs generalizing x c μ M with
  | nil =>
    have hq : (0 : ℚ) ≤ (c : ℚ) := by exact_mod_cast hc
    have h1 : (c : ℚ) + 1 ≠ 0 := by positivity
    rw [List.foldl_cons, List.foldl_nil, welfordScalarStep_eq]
    refine WelfordState.ext rfl ?_ ?_ ?_ <;>
      simp only [List.length_cons, List.length_nil, List.sum_cons,
        List.sum_nil, List.map_cons, List.map_nil] <;>
      push_cast <;>
      first
        | ring1
        | (field_simp; ring)
  | cons y ys ih =>
    have hq : (0 : ℚ) ≤ (c : ℚ) := by exact_mod_cast hc
    have h1 : (c : ℚ) + 1 ≠ 0 := by positivity
    have hc1 : (0 : ℤ) ≤ c + 1 := by omega
    rw [List.foldl_cons, welfordScalarStep_eq,
      ih y (c + 1) (μ + (x - μ) / ((c : ℚ) + 1))
        (M + (x - μ) ^ 2 * (c : ℚ) / ((c : ℚ) + 1)) hc1]
    have h2 : (c : ℚ) + 1 + ((ys.length : ℚ) + 1) ≠ 0 := by positivity
    refine WelfordState.ext rfl ?_ ?_ ?_ <;>
      simp only [List.length_cons, List.sum_cons, List.map_cons,
        List.sum_nil, List.map_nil] <;>
      push_cast <;>
      first
        | ring1
        | (field_simp; ring)

/-- Closed form of one batched Welford update on a well-formed non-empty
array: same shape of result as the scalar closed form. -/
theorem welford_arr_closed (argn : String) (c : ℤ) (μ M : ℚ) (a : NArr)
    (hc : 0 ≤ c) (hwf : a.wf) (hne : a.data ≠ []) :
    Welford.applyValue ⟨argn, c, μ, M⟩ (.arr a)
      = ⟨argn, c + (a.data.length : ℤ),
          ((c : ℚ) * μ + a.data.sum) / ((c : ℚ) + (a.data.length : ℚ)),
          M + (a.data.map fun t => t ^ 2).sum + (c : ℚ) * μ ^ 2
            - ((c : ℚ) + (a.data.length : ℚ))
              * ((((c : ℚ) * μ + a.data.sum)
                  / ((c : ℚ) + (a.data.length : ℚ))) ^ 2)⟩ := by
  have hq : (0 : ℚ) ≤ (c : ℚ) := by exact_mod_cast hc
  have hlen : a.size = a.data.length := hwf.symm
  have hpos : 0 < (a.data.length : ℚ) := by
    exact_mod_cast List.length_pos.mpr hne
  have hne2 : (a.data.length : ℚ) ≠ 0 := ne_of_gt hpos
  have hD : (c : ℚ) + (a.data.length : ℚ) ≠ 0 := by positivity
  simp only [Welford.applyValue, Value.vcount, Value.vmean, Value.vm2,
    NArr.mean, NArr.var, NArr.sum, hlen, sum_sq_dev]
  refine WelfordState.ext rfl (by push_cast; ring) ?_ ?_ <;>
    push_cast <;> field_simp <;> ring

/-! ### Claims -/

/-- C1: a Welford update whose configured keyword is present sets
`count = count_before + n`, `mean += delta * n / count_after` and
`m2 += batch_var_sum + delta^2 * n * count_before / count_after`, with
`n`, `batch_mean` and `batch_var_sum` as the claim defines them. -/
theorem welford_update_formula (s : WelfordState) (kw : KwArgs) (v : Value)
    (hv : kw.find s.argname = some v) (hwf : v.wf) :
    Welford.update s kw = .ok
      ⟨s.argname, s.count + (specN v : ℤ),
        s.mean + (specBatchMean v - s.mean) * (specN v : ℚ)
          / ((s.count : ℚ) + (specN v : ℚ)),
        s.m2 + specBatchVarSum v
          + (specBatchMean v - s.mean) ^ 2 * (specN v : ℚ) * (s.count : ℚ)
            / ((s.count : ℚ) + (specN v : ℚ))⟩ := by
  have happ : Welford.applyValue s v =
      ⟨s.argname, s.count + (specN v : ℤ),
        s.mean + (specBatchMean v - s.mean) * (specN v : ℚ)
          / ((s.count : ℚ) + (specN v : ℚ)),
        s.m2 + specBatchVarSum v
          + (specBatchMean v - s.mean) ^ 2 * (specN v : ℚ) * (s.count : ℚ)
            / ((s.count : ℚ) + (specN v : ℚ))⟩ := by
    cases v with
    | scalar x =>
      simp only [Welford.applyValue, Value.vcount, Value.vmean, Value.vm2,
        specN, specBatchMean, specBatchVarSum]
      refine WelfordState.ext rfl rfl ?_ ?_ <;> push_cast <;> ring
    | arr a =>
      have hlen : a.data.length = a.size := hwf
      simp only [Welford.applyValue, Value.vcount, Value.vmean, Value.vm2,
        specN, specBatchMean, specBatchVarSum, NArr.mean, NArr.var, NArr.sum,
        popMean, popVar, hlen]
      refine WelfordState.ext rfl rfl ?_ ?_ <;> push_cast <;> ring
  simp only [Welford.update, hv]
  rw [happ]

/-- Witness for C1 at a concrete batch. -/
theorem welford_update_formula_witness :
    Welford.update (Welford.init "values") [("values", Value.arr ⟨[2], [1, 3], .float32⟩)]
      = .ok ⟨"values", 2, 2, 2⟩ := by
  have h := welford_update_formula (Welford.init "values")
    [("values", Value.arr ⟨[2], [1, 3], .float32⟩)]
    (Value.arr ⟨[2], [1, 3], .float32⟩) (find_cons_self _ _ _)
    (by simp [Value.wf, NArr.wf, NArr.size])
  rw [h]
  norm_num [Welford.init, specN, specBatchMean, specBatchVarSum, popMean,
    popVar, NArr.size, List.sum_cons]

/-- C7: on Average and Welford, a missing configured keyword raises the
ArgumentError kind with no state produced; a present keyword never
raises it. -/
theorem missing_keyword_error :
    (∀ (s : AverageState) (kw : KwArgs), kw.find s.argname = none →
      Average.update s kw = .error (.argumentError s.argname)) ∧
    (∀ (s : WelfordState) (kw : KwArgs), kw.find s.argname = none →
      Welford.update s kw = .error (.argumentError s.argname)) ∧
    (∀ (s : AverageState) (kw : KwArgs) (v : Value), kw.find s.argname = some v →
      Average.update s kw = .ok (Average.applyValue s v)) ∧
    (∀ (s : WelfordState) (kw : KwArgs) (v : Value), kw.find s.argname = some v →
      Welford.update s kw = .ok (Welford.applyValue s v)) := by
  refine ⟨fun s kw h => ?_, fun s kw h => ?_, fun s kw v h => ?_, fun s kw v h => ?_⟩ <;>
    simp only [Average.update, Welford.update, h]

/-- Witness for C7 on concrete calls. -/
theorem missing_keyword_error_witness :
    Average.update (Average.init "values") [] = .error (.argumentError "values") ∧
    Welford.update (Welford.init "values") [] = .error (.argumentError "values") ∧
    Average.update (Average.init "values") [("values", .scalar 2)]
      = .ok (Average.applyValue (Average.init "values") (.scalar 2)) ∧
    Welford.update (Welford.init "values") [("values", .scalar 2)]
      = .ok (Welford.applyValue (Welford.init "values") (.scalar 2)) :=
  ⟨missing_keyword_error.1 _ [] rfl,
   missing_keyword_error.2.1 _ [] rfl,
   missing_keyword_error.2.2.1 _ _ _ (find_cons_self _ _ _),
   missing_keyword_error.2.2.2 _ _ _ (find_cons_self _ _ _)⟩

/-- C6 counterexample: on a fresh Welford accumulator the mean field of
`compute()` is 0 (the stored running mean), not NaN. -/
theorem welford_zero_count_mean_not_nan :
    (Welford.compute (Welford.init "values")).mean = some 0 ∧
    (Welford.compute (Welford.init "values")).mean ≠ none := by
  constructor <;> simp [Welford.compute, Welford.init]

/-- C6 as amended: on a zero-count accumulator, `compute()` never raises;
Average yields NaN, and Welford yields NaN for standard deviation and
standard error of the mean but the stored mean 0 for the mean field. -/
theorem zero_count_compute (argname : String) (s : AverageState) (w : WelfordState) :
    Average.compute (Average.init argname) = none ∧
    Average.compute (Average.reset s) = none ∧
    Welford.compute (Welford.init argname) = ⟨some 0, none, none⟩ ∧
    Welford.compute (Welford.reset w) = ⟨some 0, none, none⟩ := by
  refine ⟨?_, ?_, ?_, ?_⟩ <;>
    simp [Average.compute, Welford.compute, Average.init, Average.reset,
      Welford.init, Welford.reset, nanDiv, nanDivR]

/-- C10: an Average update with an empty array succeeds and leaves the
state, hence every later `compute`, unchanged. -/
theorem average_empty_batch (s : AverageState) (a : NArr)
    (h0 : a.size = 0) (hd : a.data = []) :
    Average.update s [(s.argname, .arr a)] = .ok s := by
  rw [Average.update, find_cons_self]
  simp [Average.applyValue, Value.vsum, Value.vcount, NArr.sum, hd, h0]

/-- `update` with the configured keyword as the only argument never
fails: it applies the value to the state. -/
theorem Average.update_single (s : AverageState) (v : Value) :
    Average.update s [(s.argname, v)] = .ok (Average.applyValue s v) := by
  rw [Average.update, find_cons_self]

/-- Witness for C10 on a concrete empty array. -/
theorem average_empty_batch_witness :
    Average.update (Average.init "values") [("values", .arr ⟨[0], [], .float32⟩)]
      = .ok (Average.init "values") :=
  average_empty_batch (Average.init "values") ⟨[0], [], .float32⟩ rfl rfl

/-- Invariant of the spec for Welford states. -/
def WelfordInv (s : WelfordState) : Prop := 0 ≤ s.count ∧ 0 ≤ s.m2

/-- Invariant of the spec for Average states. -/
def AverageInv (s : AverageState) : Prop := 0 ≤ s.count

/-- C9: `count ≥ 0 ∧ m2 ≥ 0` holds on fresh and reset Welford states and
is preserved by every successful update; Average likewise preserves
`count ≥ 0`. -/
theorem metric_invariants :
    (∀ a, WelfordInv (Welford.init a)) ∧
    (∀ s, WelfordInv (Welford.reset s)) ∧
    (∀ (s s2 : WelfordState) (kw : KwArgs),
      WelfordInv s → Welford.update s kw = .ok s2 → WelfordInv s2) ∧
    (∀ a, AverageInv (Average.init a)) ∧
    (∀ s, AverageInv (Average.reset s)) ∧
    (∀ (s s2 : AverageState) (kw : KwArgs),
      AverageInv s → Average.update s kw = .ok s2 → AverageInv s2) := by
  refine ⟨fun a => ⟨le_refl 0, le_refl 0⟩, fun s => ⟨le_refl 0, le_refl 0⟩,
    fun s s2 kw hs hup => ?_, fun a => le_refl 0, fun s => le_refl 0,
    fun s s2 kw hs hup => ?_⟩
  · rw [Welford.update] at hup
    cases hfind : kw.find s.argname with
    | none => rw [hfind] at hup; exact absurd hup (by simp)
    | some v =>
      rw [hfind] at hup
      obtain rfl : Welford.applyValue s v = s2 := by
        simpa using hup
      constructor
      · exact add_nonneg hs.1 (Int.ofNat_nonneg _)
      · refine add_nonneg hs.2 (add_nonneg (vm2_nonneg v) ?_)
        apply div_nonneg
        · have hc : (0 : ℚ) ≤ (s.count : ℚ) := by exact_mod_cast hs.1
          have := mul_self_nonneg (v.vmean - s.mean)
          positivity
        · have hc : (0 : ℚ) ≤ (s.count : ℚ) := by exact_mod_cast hs.1
          push_cast
          positivity
  · rw [Average.update] at hup
    cases hfind : kw.find s.argname with
    | none => rw [hfind] at hup; exact absurd hup (by simp)
    | some v =>
      rw [hfind] at hup
      obtain rfl : Average.applyValue s v = s2 := by
        simpa using hup
      exact add_nonneg hs (Int.ofNat_nonneg _)

/-- C4: one batched Welford update on a well-formed non-empty array
equals the same elements fed as sequential single-element updates, and
the single-element update is the classic scalar Welford recurrence. -/
theorem batched_equals_sequential (s : WelfordState) (a : NArr)
    (hc : 0 ≤ s.count) (hwf : a.wf) (hne : a.data ≠ []) :
    Welford.applyValue s (.arr a) = a.data.foldl welfordScalarStep s ∧
    (∀ (t : WelfordState) (x : ℚ), 0 ≤ t.count →
      Welford.applyValue t (.scalar x) = classicWelfordStep t x) := by
  constructor
  · obtain ⟨argn, c, μ, M⟩ := s
    rcases hlist : a.data with - | ⟨x, xs⟩
    · exact absurd hlist hne
    · rw [welford_arr_closed argn c μ M a hc hwf hne, hlist,
        welford_foldl_closed xs x argn c μ M hc]
  · intro t x hct
    obtain ⟨argn, c, μ, M⟩ := t
    have hq : (0 : ℚ) ≤ (c : ℚ) := by exact_mod_cast hct
    have h1 : (c : ℚ) + 1 ≠ 0 := by positivity
    simp only [Welford.applyValue, Value.vcount, Value.vmean, Value.vm2,
      classicWelfordStep]
    refine WelfordState.ext rfl (by push_cast; ring) ?_ ?_ <;>
      push_cast <;>
      first
        | ring1
        | (field_simp; ring)

/-- Witness for C4 on a concrete two-element batch. -/
theorem batched_equals_sequential_witness :
    Welford.applyValue (Welford.init "values") (.arr ⟨[2], [1, 3], .float32⟩)
      = [1, 3].foldl welfordScalarStep (Welford.init "values") :=
  (batched_equals_sequential (Welford.init "values") ⟨[2], [1, 3], .float32⟩
    (by simp [Welford.init]) (by simp [NArr.wf, NArr.size]) (by simp)).1

/-- `Welford.compute` on a positive count: variance is `m2 / count`, the
standard deviation is its square root, and the standard error divides by
`sqrt count`. -/
theorem welford_compute_pos (s : WelfordState) (hc : 0 < s.count) :
    Welford.compute s = ⟨some (s.mean : ℝ),
      some (Real.sqrt ((s.m2 / (s.count : ℚ) : ℚ) : ℝ) / Real.sqrt (s.count : ℝ)),
      some (Real.sqrt ((s.m2 / (s.count : ℚ) : ℚ) : ℝ))⟩ := by
  have h0 : (0 : ℝ) < ((s.count : ℤ) : ℝ) := by exact_mod_cast hc
  have h1 : ((s.count : ℤ) : ℝ) ≠ 0 := ne_of_gt h0
  have h2 : Real.sqrt ((s.count : ℤ) : ℝ) ≠ 0 :=
    ne_of_gt (Real.sqrt_pos.mpr h0)
  simp only [Welford.compute, nanDivR, if_neg h1, if_neg h2]
  have hcast : ((s.m2 / (s.count : ℚ) : ℚ) : ℝ) = (s.m2 : ℝ) / ((s.count : ℤ) : ℝ) := by
    push_cast
    rfl
  rw [hcast]
  rfl

/-- C2: a non-empty sequence of scalar updates into a fresh Welford
accumulator computes exactly the two-pass population mean, the two-pass
population standard deviation, and a standard error equal to the
standard deviation divided by sqrt of the count. -/
theorem welford_two_pass (l : List ℚ) (hl : l ≠ []) :
    (Welford.compute (runWelford l)).mean = some ((popMean l : ℚ) : ℝ) ∧
    (Welford.compute (runWelford l)).standard_deviation
      = some (Real.sqrt ((popVar l : ℚ) : ℝ)) ∧
    (Welford.compute (runWelford l)).standard_error_of_mean
      = some (Real.sqrt ((popVar l : ℚ) : ℝ) / Real.sqrt (l.length : ℝ)) := by
  rcases l with - | ⟨x, xs⟩
  · exact absurd rfl hl
  · have hstate : runWelford (x :: xs)
        = ⟨"values", 0 + ((x :: xs).length : ℤ),
            ((0 : ℚ) * 0 + (x :: xs).sum) / ((0 : ℚ) + ((x :: xs).length : ℚ)),
            0 + ((x :: xs).map fun t => t ^ 2).sum + (0 : ℚ) * 0 ^ 2
              - ((0 : ℚ) + ((x :: xs).length : ℚ))
                * ((((0 : ℚ) * 0 + (x :: xs).sum)
                    / ((0 : ℚ) + ((x :: xs).length : ℚ))) ^ 2)⟩ := by
      rw [runWelford]
      exact welford_foldl_closed xs x "values" 0 0 0 le_rfl
    have hnq : ((x :: xs).length : ℚ) ≠ 0 :=
      Nat.cast_ne_zero.mpr (by simp)
    have hcount : (runWelford (x :: xs)).count = ((x :: xs).length : ℤ) := by
      rw [hstate]
      simp
    have hcpos : 0 < (runWelford (x :: xs)).count := by
      rw [hcount]
      exact_mod_cast Nat.succ_pos _
    have hmean : (runWelford (x :: xs)).mean = popMean (x :: xs) := by
      rw [hstate, popMean]
      norm_num
    have hvar : (runWelford (x :: xs)).m2 / ((runWelford (x :: xs)).count : ℚ)
        = popVar (x :: xs) := by
      rw [hstate, popVar, popMean, sum_sq_dev]
      field_simp
      ring
    rw [welford_compute_pos _ hcpos, hmean, hvar, hcount]
    refine ⟨rfl, rfl, ?_⟩
    norm_num

/-- Witness for C2 at a concrete sequence. -/
theorem welford_two_pass_witness :
    (Welford.compute (runWelford [1, 2, 3])).mean = some ((2 : ℚ) : ℝ) ∧
    (Welford.compute (runWelford [1, 2, 3])).standard_deviation
      = some (Real.sqrt (((2 / 3 : ℚ) : ℚ) : ℝ)) ∧
    (Welford.compute (runWelford [1, 2, 3])).standard_error_of_mean
      = some (Real.sqrt (((2 / 3 : ℚ) : ℚ) : ℝ) / Real.sqrt ((3 : ℕ) : ℝ)) := by
  have h := welford_two_pass [1, 2, 3] (by simp)
  have hm : popMean [1, 2, 3] = 2 := by
    norm_num [popMean]
  have hv : popVar [1, 2, 3] = 2 / 3 := by
    norm_num [popVar, popMean]
  rw [hm, hv] at h
  simpa using h

/-- C3: a sequence of well-formed successful updates into a fresh Average
accumulator accumulates the flat sum in `total` and the flat element
count in `count`, and (when any element arrived) computes the
count-weighted mean of all elements. -/
theorem average_weighted_mean (l : List Value) (hwf : ∀ v ∈ l, v.wf)
    (hne : (allElems l).length ≠ 0) :
    (runAverage l).total = (allElems l).sum ∧
    (runAverage l).count = ((allElems l).length : ℤ) ∧
    Average.compute (runAverage l)
      = some ((allElems l).sum / ((allElems l).length : ℚ)) := by
  have key : ∀ (ws : List Value) (s : AverageState), (∀ v ∈ ws, v.wf) →
      ws.foldl Average.applyValue s
        = ⟨s.argname, s.total + (allElems ws).sum,
            s.count + ((allElems ws).length : ℤ)⟩ := by
    intro ws
    induction ws with
    | nil =>
      intro s hws
      simp [allElems]
    | cons v t ih =>
      intro s hws
      have hv : v.wf := hws v (List.mem_cons_self v t)
      have helems : v.elems.sum = v.vsum ∧ v.elems.length = v.vcount := by
        cases v with
        | scalar y => simp [Value.elems, Value.vsum, Value.vcount]
        | arr a =>
          exact ⟨rfl, hv⟩
      rw [List.foldl_cons, ih _ (fun w hw => hws w (List.mem_cons_of_mem v hw))]
      simp only [Average.applyValue, allElems, List.map_cons, List.flatten_cons,
        List.sum_append, List.length_append]
      refine AverageState.ext rfl ?_ ?_
      · rw [← helems.1]
        push_cast
        ring
      · rw [← helems.2]
        push_cast
        ring
  have hrun := key l (Average.init "values") hwf
  rw [runAverage, hrun]
  have hq : ((allElems l).length : ℚ) ≠ 0 := by exact_mod_cast hne
  refine ⟨by simp [Average.init], by simp [Average.init], ?_⟩
  simp only [Average.compute, Average.init, nanDiv]
  rw [if_neg (by push_cast; simpa using hq)]
  norm_num

/-- Witness for C3 on a scalar followed by a two-element batch. -/
theorem average_weighted_mean_witness :
    Average.compute (runAverage [.scalar 1, .arr ⟨[2], [2, 3], .float32⟩])
      = some 2 := by
  have h := average_weighted_mean [.scalar 1, .arr ⟨[2], [2, 3], .float32⟩]
    (by
      intro v hv
      simp only [List.mem_cons, List.not_mem_nil, or_false] at hv
      rcases hv with rfl | rfl
      · trivial
      · exact rfl)
    (by simp [allElems, Value.elems])
  rw [h.2.2]
  norm_num [allElems, Value.elems]

theorem toRows_flatten (c : ℕ) (hc : 0 < c) :
    ∀ rows : List (List ℚ), (∀ r ∈ rows, r.length = c) →
      toRows c rows.flatten = rows := by
  intro rows
  induction rows with
  | nil =>
    intro hr
    rw [List.flatten_nil, toRows]
    simp
  | cons r rs ih =>
    intro hr
    have hrlen : r.length = c := hr r (List.mem_cons_self r rs)
    have hrne : r ≠ [] := by
      intro h
      rw [h] at hrlen
      simp at hrlen
      omega
    rw [List.flatten_cons, toRows]
    rw [dif_neg (by
      push_neg
      exact ⟨by omega, by simp [hrne]⟩)]
    rw [← hrlen, List.take_left r rs.flatten, List.drop_left r rs.flatten, hrlen,
      ih fun w hw => hr w (List.mem_cons_of_mem r hw)]

theorem indicator_sum (rows : List (List ℚ)) (ys : List ℤ) :
    (List.zipWith (fun p y => if p = y then (1 : ℚ) else 0)
      (rows.map fun r => (argmaxIdx r : ℚ)) (ys.map fun y : ℤ => (y : ℚ))).sum
      = ((rows.zip ys).countP fun q => (argmaxIdx q.1 : ℤ) == q.2 : ℕ) := by
  induction rows generalizing ys with
  | nil => simp
  | cons r rt ih =>
    cases ys with
    | nil => simp
    | cons y yt =>
      simp only [List.map_cons, List.zipWith_cons_cons, List.sum_cons,
        List.zip_cons_cons, List.countP_cons, ih yt]
      by_cases h : (argmaxIdx r : ℤ) = y
      · have hq : ((argmaxIdx r : ℕ) : ℚ) = (y : ℚ) := by exact_mod_cast h
        simp only [if_pos hq, h, beq_self_eq_true, if_pos]
        push_cast
        ring
      · have hq : ¬(((argmaxIdx r : ℕ) : ℚ) = (y : ℚ)) := by exact_mod_cast h
        have hb : ((argmaxIdx r : ℤ) == y) = false := beq_eq_false_iff_ne.mpr h
        simp [if_neg hq, hb]

/-- C5: an Accuracy update whose rank or label-dtype precondition fails
raises the ShapeOrTypeError kind with no state produced; on a
well-formed batch of shape (b, c) logits and b int32 labels from a fresh
accumulator, the update accumulates the 0/1 match indicators and
`compute` then yields the fraction of rows whose argmax equals the
label. -/
theorem accuracy_fraction :
    (∀ (s : AverageState) (logits labels : NArr),
      logits.ndim ≠ labels.ndim + 1 ∨ labels.dtype ≠ DType.int32 →
      Accuracy.update s logits labels = .error .shapeOrTypeError) ∧
    (∀ (b c : ℕ) (rows : List (List ℚ)) (ys : List ℤ),
      0 < b → 0 < c → rows.length = b → (∀ r ∈ rows, r.length = c) →
      ys.length = b →
      Accuracy.update (Average.init "values")
          ⟨[b, c], rows.flatten, .float32⟩
          ⟨[b], ys.map (fun y : ℤ => (y : ℚ)), .int32⟩
        = .ok ⟨"values",
            (((rows.zip ys).countP fun q => (argmaxIdx q.1 : ℤ) == q.2 : ℕ) : ℚ),
            (b : ℤ)⟩ ∧
      Average.compute ⟨"values",
          (((rows.zip ys).countP fun q => (argmaxIdx q.1 : ℤ) == q.2 : ℕ) : ℚ),
          (b : ℤ)⟩
        = some ((((rows.zip ys).countP fun q => (argmaxIdx q.1 : ℤ) == q.2 : ℕ) : ℚ)
            / (b : ℚ))) := by
  constructor
  · intro s logits labels hbad
    rw [Accuracy.update, if_pos hbad]
  · intro b c rows ys hb hc hrows hlen hys
    constructor
    · rw [Accuracy.update, if_neg (by simp [NArr.ndim])]
      refine Eq.trans (Average.update_single (Average.init "values") _) ?_
      refine congrArg Except.ok (AverageState.ext rfl ?_ ?_)
      · show (Average.init "values").total + Value.vsum _ = _
        simp only [Average.init, Value.vsum, NArr.sum]
        rw [show ([b, c] : List ℕ).getLastD 1 = c from rfl,
          toRows_flatten c hc rows hlen, indicator_sum rows ys]
        ring
      · show (Average.init "values").count + (Value.vcount _ : ℤ) = _
        simp only [Average.init, Value.vcount, NArr.size]
        show (0 : ℤ) + (([b, c] : List ℕ).dropLast.prod : ℤ) = (b : ℤ)
        simp
    · have hbq : (((b : ℤ) : ℚ)) ≠ 0 := by
        push_cast
        exact Nat.cast_ne_zero.mpr (by omega)
      simp only [Average.compute, nanDiv]
      rw [if_neg hbq]
      exact congrArg some (by push_cast; ring)

/-- Witness for C5 on the docstring-style batch: those logits argmax to
`[0, 1, 0, 1, 0]`, matching labels `[1, 1, 0, 1, 0]` in four of five
rows. -/
theorem accuracy_fraction_witness :
    Accuracy.update (Average.init "values")
        ⟨[5, 2], [[2, 1], [1, 2], [2, 1], [1, 2], [2, 1]].flatten, .float32⟩
        ⟨[5], [(1 : ℤ), 1, 0, 1, 0].map (fun y : ℤ => (y : ℚ)), .int32⟩
      = .ok ⟨"values", 4, 5⟩ := by
  have h := (accuracy_fraction.2 5 2 [[2, 1], [1, 2], [2, 1], [1, 2], [2, 1]]
    [(1 : ℤ), 1, 0, 1, 0] (by norm_num) (by norm_num) rfl
    (by
      intro r hr
      simp only [List.mem_cons, List.not_mem_nil, or_false] at hr
      rcases hr with rfl | rfl | rfl | rfl | rfl <;> rfl)
    rfl).1
  rw [h]
  norm_num [argmaxIdx, argmaxAux]

/-- The new state of a child accumulator whose update succeeded (the
child itself otherwise). -/
def updOk (m : MetricI) (kw : KwArgs) : MetricI :=
  match m.update kw with
  | .ok m2 => m2
  | .error _ => m

/-- C8: the composite resets every owned accumulator in stored order,
computes every owned accumulator in stored name order without mutating
anything (it is a pure function of the state), and — whenever every
child accepts the keyword set — updates every owned accumulator in
stored order with the same full keyword set. -/
theorem multimetric_fanout (ms : MultiState) :
    MultiMetric.reset ms = ms.map (fun p => (p.1, p.2.reset)) ∧
    MultiMetric.compute ms = ms.map (fun p => (p.1, p.2.compute)) ∧
    (MultiMetric.reset ms).map Prod.fst = ms.map Prod.fst ∧
    (∀ kw : KwArgs, (∀ p ∈ ms, ∃ m2, p.2.update kw = .ok m2) →
      MultiMetric.update ms kw = (ms.map fun p => (p.1, updOk p.2 kw), none)) := by
  have hreset : ∀ t : MultiState,
      MultiMetric.reset t = t.map fun p => (p.1, p.2.reset) := by
    intro t
    induction t with
    | nil => rfl
    | cons p t2 ih =>
      obtain ⟨n, m⟩ := p
      simp [MultiMetric.reset, ih]
  have hcompute : ∀ t : MultiState,
      MultiMetric.compute t = t.map fun p => (p.1, p.2.compute) := by
    intro t
    induction t with
    | nil => rfl
    | cons p t2 ih =>
      obtain ⟨n, m⟩ := p
      simp [MultiMetric.compute, ih]
  refine ⟨hreset ms, hcompute ms, ?_, ?_⟩
  · rw [hreset ms, List.map_map]
    rfl
  · induction ms with
    | nil =>
      intro kw hok
      rfl
    | cons p t ih =>
      intro kw hok
      obtain ⟨n, m⟩ := p
      obtain ⟨m2, hm2⟩ := hok (n, m) (List.mem_cons_self _ _)
      have hrest := ih kw (fun q hq => hok q (List.mem_cons_of_mem _ hq))
      simp only [MultiMetric.update, hm2, List.map_cons, updOk]
      rw [hrest]
      simp [updOk]

/-- Witness for C8: one owned Average, one successful fan-out update. -/
theorem multimetric_fanout_witness :
    MultiMetric.update [("loss", .avg (Average.init "values"))]
        [("values", .scalar 2)]
      = ([("loss", .avg ⟨"values", 2, 1⟩)], none) := by
  have h := (multimetric_fanout [("loss", .avg (Average.init "values"))]).2.2.2
    [("values", .scalar 2)]
    (by
      intro p hp
      simp only [List.mem_cons, List.not_mem_nil, or_false] at hp
      subst hp
      exact ⟨.avg ⟨"values", 2, 1⟩,
        by simp [MetricI.update, Average.update, KwArgs.find, List.lookup,
          Average.init, Average.applyValue, Value.vsum, Value.vcount,
          Except.map]⟩)
  rw [h]
  simp [updOk, MetricI.update, Average.update, KwArgs.find, List.lookup,
    Average.init, Average.applyValue, Value.vsum, Value.vcount, Except.map]

/-- Witness for C9 on concrete updates. -/
theorem metric_invariants_witness :
    WelfordInv (Welford.applyValue (Welford.init "values") (.scalar 3)) ∧
    AverageInv (Average.applyValue (Average.init "values") (.scalar 3)) :=
  ⟨metric_invariants.2.2.1 (Welford.init "values") _ [("values", .scalar 3)]
      ⟨le_refl 0, le_refl 0⟩
      (by simp [Welford.update, KwArgs.find, List.lookup, Welford.init]),
   metric_invariants.2.2.2.2.2 (Average.init "values") _ [("values", .scalar 3)]
      (le_refl 0)
      (by simp [Average.update, KwArgs.find, List.lookup, Average.init])⟩

end Metrics
